import Mathlib

/-
Shallow embedding of src/find_shortest_distance_between_two_point_clouds.ipynb.

Points are lists of coordinates drawn from an arbitrary linearly ordered
commutative ring: the theorems below therefore cover real coordinates, while
concrete witnesses evaluate at integer coordinates.  All distances in the
model are SQUARED Euclidean distances: the square root is strictly monotone
on nonnegatives, so every comparison, minimum and equality of Euclidean
distances in the source is mirrored exactly by the corresponding comparison
of squared distances here.

The scipy KDTree used by the source is external library code; its queries
are modelled as exact 1-nearest-neighbour scans, with distance ties broken
by the lowest index as the spec describes, and with the dimensionality
guard that scipy applies when a query point does not match the tree data.
-/

variable {α : Type} [LinearOrderedCommRing α]

/-- Squared Euclidean distance between two coordinate lists. -/
def sqDist (p q : List α) : α :=
  ((List.zipWith (fun a b => (a - b) * (a - b)) p q)).sum

/-- Exact 1-nearest-neighbour scan over a cloud: returns the index of the
point minimising the squared distance to `p` together with that squared
distance, ties broken by the lowest index; `none` on an empty cloud. -/
def nnOpt : List (List α) → List α → Option (ℕ × α)
  | [], _ => none
  | x :: xs, p =>
    match nnOpt xs p with
    | none => some (0, sqDist x p)
    | some (j, e) => if e < sqDist x p then some (j + 1, e) else some (0, sqDist x p)

theorem sqDist_comm (p q : List α) : sqDist p q = sqDist q p := by
  induction p generalizing q with
  | nil => cases q <;> rfl
  | cons a p ih =>
    cases q with
    | nil => rfl
    | cons b q =>
      simp only [sqDist, List.zipWith, List.sum_cons] at *
      rw [ih q]
      ring_nf

theorem sqDist_nonneg (p q : List α) : 0 ≤ sqDist p q := by
  induction p generalizing q with
  | nil => cases q <;> simp [sqDist]
  | cons a p ih =>
    cases q with
    | nil => simp [sqDist]
    | cons b q =>
      simp only [sqDist, List.zipWith, List.sum_cons]
      have h1 : 0 ≤ (a - b) * (a - b) := mul_self_nonneg _
      have h2 := ih q
      simp only [sqDist] at h2
      exact add_nonneg h1 h2

theorem nnOpt_eq_none_iff (c : List (List α)) (p : List α) :
    nnOpt c p = none ↔ c = [] := by
  cases c with
  | nil => simp [nnOpt]
  | cons x xs =>
    simp only [nnOpt]
    cases h : nnOpt xs p with
    | none => simp
    | some v =>
      obtain ⟨j, e⟩ := v
      by_cases he : e < sqDist x p <;> simp [he]

theorem nnOpt_isSome (c : List (List α)) (p : List α) (h : c ≠ []) :
    ∃ i d, nnOpt c p = some (i, d) := by
  cases hn : nnOpt c p with
  | none => exact absurd ((nnOpt_eq_none_iff c p).mp hn) h
  | some v => exact ⟨v.1, v.2, by simp [hn]⟩

/-- Full characterisation of the nearest-neighbour scan: the returned index
is in range, the returned value is the squared distance to that point, it is
minimal over the whole cloud, and every strictly earlier index is strictly
worse (lowest-index tie-breaking). -/
theorem nnOpt_spec (c : List (List α)) (p : List α) (i : ℕ) (d : α)
    (h : nnOpt c p = some (i, d)) :
    i < c.length ∧ d = sqDist (c.getD i []) p ∧
      (∀ j, j < c.length → d ≤ sqDist (c.getD j []) p) ∧
      (∀ j, j < i → d < sqDist (c.getD j []) p) := by
  induction c generalizing i d with
  | nil => simp [nnOpt] at h
  | cons x xs ih =>
    simp only [nnOpt] at h
    cases hx : nnOpt xs p with
    | none =>
      rw [hx] at h
      have hxs : xs = [] := (nnOpt_eq_none_iff xs p).mp hx
      simp only [Option.some.injEq, Prod.mk.injEq] at h
      obtain ⟨hi, hd⟩ := h
      subst hxs
      refine ⟨by simp [← hi], by simp [← hi, ← hd], ?_, ?_⟩
      · intro j hj
        simp only [List.length_cons, List.length_nil] at hj
        interval_cases j
        simp [← hd]
      · intro j hj
        omega
    | some v =>
      obtain ⟨j0, e⟩ := v
      rw [hx] at h
      obtain ⟨hj0, he, hmin, hlow⟩ := ih j0 e hx
      by_cases hcmp : e < sqDist x p
      · simp only [if_pos hcmp, Option.some.injEq, Prod.mk.injEq] at h
        obtain ⟨hi, hd⟩ := h
        subst hi hd
        refine ⟨by simpa using Nat.succ_lt_succ hj0, by simpa using he, ?_, ?_⟩
        · intro j hj
          cases j with
          | zero => simpa using le_of_lt hcmp
          | succ k =>
            have : k < xs.length := by simpa using hj
            simpa using hmin k this
        · intro j hj
          cases j with
          | zero => simpa using hcmp
          | succ k =>
            have : k < j0 := by omega
            simpa using hlow k this
      · simp only [if_neg hcmp, Option.some.injEq, Prod.mk.injEq] at h
        obtain ⟨hi, hd⟩ := h
        subst hi hd
        refine ⟨by simp, by simp, ?_, ?_⟩
        · intro j hj
          cases j with
          | zero => simp
          | succ k =>
            have hk : k < xs.length := by simpa using hj
            have := hmin k hk
            have hxe : sqDist x p ≤ e := le_of_not_lt hcmp
            simpa using le_trans hxe (hmin k hk)
        · intro j hj
          omega

/-- Error message raised by the source when either cloud is empty. -/
def emptyMsg : String := "The input point clouds cannot be empty!"

/-- Error message raised by the source when the method string is neither
new nor exhaustive. -/
def badMethodMsg : String :=
  "The selected method is incorrect! Only \x27new\x27 or \x27exhaustive\x27 method can be used."

/-- Error raised by scipy inside KDTree.query when the query point does not
match the dimensionality of the tree data (the source has no dimension
check of its own). -/
def dimMismatchMsg : String :=
  "ValueError: query point dimension does not match KDTree data dimension"

/-- Unreachable arm: the unbounded while-1 loop of the source is modelled
with fuel, which theorem newLoop_total proves is never exhausted. -/
def fuelMsg : String := "unreachable: while-1 loop fuel exhausted"

/-- Error raised by scipy when a KDTree is queried over no data; unreachable
from find_shortest_distance, whose empty-input guard runs first. -/
def emptyTreeMsg : String := "ValueError: KDTree data is empty"

/-- Model of KDTree(cloud).query(p, k=1): scipy rejects a query point whose
dimensionality differs from the tree data, otherwise returns the exact
nearest neighbour (index and squared distance in this embedding). -/
def kdQuery (cloud : List (List α)) (p : List α) : Except String (ℕ × α) :=
  if p.length = (cloud.headD []).length then
    match nnOpt cloud p with
    | some iv => Except.ok iv
    | none => Except.error emptyTreeMsg
  else Except.error dimMismatchMsg

/-- The while-1 loop of the new method: from the current reference anchor
`r`, find the nearest query point `q`, then the nearest reference point of
`q`; stop when that is `r` again, else continue from it.  `refAcc`/`qAcc`
accumulate reference_indices (minus the current anchor) and query_indices.
The unbounded source loop is modelled with a fuel argument; `none` means
the fuel ran out (proved unreachable below). -/
def newLoop (R Q : List (List α)) :
    ℕ → ℕ → List ℕ → List ℕ → Option (Except String (α × List ℕ × List ℕ))
  | 0, _, _, _ => none
  | fuel + 1, r, refAcc, qAcc =>
    match kdQuery Q (R.getD r []) with
    | Except.error e => some (Except.error e)
    | Except.ok (q, _) =>
      match kdQuery R (Q.getD q []) with
      | Except.error e => some (Except.error e)
      | Except.ok (r2, _) =>
        if r2 = r then
          some (Except.ok (sqDist (R.getD r []) (Q.getD q []), refAcc ++ [r], qAcc ++ [q]))
        else
          newLoop R Q fuel r2 (refAcc ++ [r]) (qAcc ++ [q])

/-- Model of np.amin on the result of the batch query (0 on an empty list,
which the empty-input guard makes unreachable). -/
def amin : List α → α
  | [] => 0
  | x :: xs => xs.foldl min x

/-- Model of the batch call query_kd_tree.query(reference_points): the
per-reference-point nearest-neighbour squared distances in the query cloud,
or the scipy error when dimensionalities disagree. -/
def batchQuery (Q : List (List α)) : List (List α) → Except String (List α)
  | [] => Except.ok []
  | p :: ps =>
    match kdQuery Q p, batchQuery Q ps with
    | Except.error e, _ => Except.error e
    | Except.ok _, Except.error e => Except.error e
    | Except.ok iv, Except.ok ds => Except.ok (iv.2 :: ds)

/-- Result of find_shortest_distance: the new method returns the distance
together with the two visited-index traces, the exhaustive method returns
only the minimum distance. -/
inductive FSDResult (α : Type) where
  | newR (d : α) (referenceIndices queryIndices : List ℕ)
  | exhaustiveR (d : α)
deriving DecidableEq

deriving instance DecidableEq for Except

/-- Model of find_shortest_distance, instrumented: the second component
counts the KDTree constructions the source performs before returning
(query tree first, then the reference tree when the method is new), so that
the point at which an error is raised relative to index construction is
visible.  The fuel of the new-method loop is the reference cloud size,
shown sufficient by newLoop_total. -/
def find_shortest_distance_traced (reference_points query_points : List (List α))
    (method : String) : Except String (FSDResult α) × ℕ :=
  if reference_points.length = 0 ∨ query_points.length = 0 then
    (Except.error emptyMsg, 0)
  else if method = "new" then
    match newLoop reference_points query_points reference_points.length 0 [] [] with
    | some (Except.ok (d, rs, qs)) => (Except.ok (FSDResult.newR d rs qs), 2)
    | some (Except.error e) => (Except.error e, 2)
    | none => (Except.error fuelMsg, 2)
  else if method = "exhaustive" then
    match batchQuery query_points reference_points with
    | Except.error e => (Except.error e, 1)
    | Except.ok ds => (Except.ok (FSDResult.exhaustiveR (amin ds)), 1)
  else (Except.error badMethodMsg, 1)

/-- Model of find_shortest_distance as the source exposes it. -/
def find_shortest_distance (reference_points query_points : List (List α))
    (method : String) : Except String (FSDResult α) :=
  (find_shortest_distance_traced reference_points query_points method).1

/-- Inner product of two coordinate lists. -/
def dot (w p : List α) : α := (List.zipWith (fun a b => a * b) w p).sum

/-- Shallow embedding of "the convex hulls of the two clouds are disjoint":
a hyperplane strictly separates the two point sets.  For finite point sets
this is equivalent to disjointness of the convex hulls (hyperplane
separation of disjoint compact convex sets). -/
def LinSep (R Q : List (List α)) : Prop :=
  ∃ w c, (∀ p ∈ R, dot w p < c) ∧ (∀ p ∈ Q, c < dot w p)

theorem getD_mem_of_lt (c : List (List α)) (i : ℕ) (h : i < c.length) :
    c.getD i [] ∈ c := by
  rw [List.getD_eq_getElem?_getD, List.getElem?_eq_getElem h, Option.getD_some]
  exact List.getElem_mem h

theorem headD_mem (c : List (List α)) (h : c ≠ []) : c.headD [] ∈ c := by
  cases c with
  | nil => exact absurd rfl h
  | cons x xs => simp

theorem kdQuery_ok (cloud : List (List α)) (p : List α) (i : ℕ) (d : α)
    (h : kdQuery cloud p = Except.ok (i, d)) :
    nnOpt cloud p = some (i, d) ∧ p.length = (cloud.headD []).length := by
  unfold kdQuery at h
  by_cases hl : p.length = (cloud.headD []).length
  · rw [if_pos hl] at h
    cases hn : nnOpt cloud p with
    | none => rw [hn] at h; exact absurd h (by simp)
    | some iv =>
      rw [hn] at h
      simp only [Except.ok.injEq] at h
      exact ⟨by simp [hn, h], hl⟩
  · rw [if_neg hl] at h
    exact absurd h (by simp)

theorem kdQuery_error_msg (cloud : List (List α)) (p : List α) (e : String)
    (hc : cloud ≠ []) (h : kdQuery cloud p = Except.error e) : e = dimMismatchMsg := by
  unfold kdQuery at h
  by_cases hl : p.length = (cloud.headD []).length
  · rw [if_pos hl] at h
    obtain ⟨i, d, hn⟩ := nnOpt_isSome cloud p hc
    rw [hn] at h
    exact absurd h (by simp)
  · rw [if_neg hl] at h
    simp only [Except.error.injEq] at h
    exact h.symm

theorem kdQuery_ok_of_dim (cloud : List (List α)) (p : List α)
    (hc : cloud ≠ []) (hl : p.length = (cloud.headD []).length) :
    ∃ i d, kdQuery cloud p = Except.ok (i, d) ∧ nnOpt cloud p = some (i, d) := by
  obtain ⟨i, d, hn⟩ := nnOpt_isSome cloud p hc
  refine ⟨i, d, ?_, hn⟩
  unfold kdQuery
  rw [if_pos hl, hn]

theorem kdQuery_error_dim (cloud : List (List α)) (p : List α)
    (hl : p.length ≠ (cloud.headD []).length) :
    kdQuery cloud p = Except.error dimMismatchMsg := by
  unfold kdQuery
  rw [if_neg hl]

/-- The chained structure of the index traces produced by the while-1 loop:
each visited query index is the nearest query point of the current
reference anchor, each next reference anchor is the nearest reference point
of that query point, and the trace ends at a fixed point. -/
inductive Trace (R Q : List (List α)) : ℕ → List ℕ → List ℕ → Prop where
  | stop (r q : ℕ) (dq dr : α)
      (h1 : kdQuery Q (R.getD r []) = Except.ok (q, dq))
      (h2 : kdQuery R (Q.getD q []) = Except.ok (r, dr)) :
      Trace R Q r [r] [q]
  | step (r q r2 : ℕ) (dq dr : α) (rs qs : List ℕ)
      (h1 : kdQuery Q (R.getD r []) = Except.ok (q, dq))
      (h2 : kdQuery R (Q.getD q []) = Except.ok (r2, dr))
      (hne : r2 ≠ r)
      (ht : Trace R Q r2 rs qs) :
      Trace R Q r (r :: rs) (q :: qs)

theorem Trace.ne_nil {R Q : List (List α)} {r : ℕ} {rs qs : List ℕ}
    (h : Trace R Q r rs qs) : rs ≠ [] ∧ qs ≠ [] := by
  cases h <;> simp

theorem Trace.head_eq {R Q : List (List α)} {r : ℕ} {rs qs : List ℕ}
    (h : Trace R Q r rs qs) : rs.head? = some r := by
  cases h <;> rfl

theorem Trace.head_q {R Q : List (List α)} {r : ℕ} {rs qs : List ℕ}
    (h : Trace R Q r rs qs) :
    ∃ q dq, qs.head? = some q ∧ kdQuery Q (R.getD r []) = Except.ok (q, dq) := by
  cases h with
  | stop r q dq dr h1 h2 => exact ⟨q, dq, rfl, h1⟩
  | step r q r2 dq dr rs qs h1 h2 hne ht => exact ⟨q, dq, rfl, h1⟩

theorem getLast?_cons_of_ne_nil {l : List ℕ} (h : l ≠ []) (a : ℕ) :
    (a :: l).getLast? = l.getLast? := by
  cases l with
  | nil => exact absurd rfl h
  | cons b t => rw [List.getLast?_cons_cons]

/-- A trace ends at a fixed point of the alternation: the nearest query
point of the last reference index is the last query index, and the nearest
reference point of that query point is the last reference index itself. -/
theorem Trace.last_fixed {R Q : List (List α)} {r : ℕ} {rs qs : List ℕ}
    (h : Trace R Q r rs qs) :
    ∃ rl ql dq dr, rs.getLast? = some rl ∧ qs.getLast? = some ql ∧
      kdQuery Q (R.getD rl []) = Except.ok (ql, dq) ∧
      kdQuery R (Q.getD ql []) = Except.ok (rl, dr) := by
  induction h with
  | stop r q dq dr h1 h2 => exact ⟨r, q, dq, dr, by simp, by simp, h1, h2⟩
  | step r q r2 dq dr rs qs h1 h2 hne ht ih =>
    obtain ⟨rl, ql, dq2, dr2, hl1, hl2, hk1, hk2⟩ := ih
    obtain ⟨hrs, hqs⟩ := Trace.ne_nil ht
    exact ⟨rl, ql, dq2, dr2,
      by rw [getLast?_cons_of_ne_nil hrs]; exact hl1,
      by rw [getLast?_cons_of_ne_nil hqs]; exact hl2, hk1, hk2⟩

/-- One alternation step cannot increase the round-trip distance. -/
theorem step_le {R Q : List (List α)} {r q r2 q2 : ℕ} {dq dr dq2 : α}
    (hr : r < R.length)
    (h1 : kdQuery Q (R.getD r []) = Except.ok (q, dq))
    (h2 : kdQuery R (Q.getD q []) = Except.ok (r2, dr))
    (h3 : kdQuery Q (R.getD r2 []) = Except.ok (q2, dq2)) :
    sqDist (R.getD r2 []) (Q.getD q2 []) ≤ sqDist (R.getD r []) (Q.getD q []) := by
  obtain ⟨hn1, _⟩ := kdQuery_ok _ _ _ _ h1
  obtain ⟨hn2, _⟩ := kdQuery_ok _ _ _ _ h2
  obtain ⟨hn3, _⟩ := kdQuery_ok _ _ _ _ h3
  obtain ⟨hq_lt, hdq, hq_min, _⟩ := nnOpt_spec _ _ _ _ hn1
  obtain ⟨hr2_lt, hdr, hr_min, _⟩ := nnOpt_spec _ _ _ _ hn2
  obtain ⟨hq2_lt, hdq2, hq2_min, _⟩ := nnOpt_spec _ _ _ _ hn3
  have e1 : dq2 ≤ sqDist (Q.getD q []) (R.getD r2 []) := hq2_min q hq_lt
  have e2 : dr ≤ sqDist (R.getD r []) (Q.getD q []) := hr_min r hr
  calc sqDist (R.getD r2 []) (Q.getD q2 [])
      = dq2 := by rw [hdq2, sqDist_comm]
    _ ≤ sqDist (Q.getD q []) (R.getD r2 []) := e1
    _ = dr := by rw [hdr, sqDist_comm]
    _ ≤ sqDist (R.getD r []) (Q.getD q []) := e2

/-- Along a trace, the sequence of round-trip distances of the visited
(reference index, query index) pairs is non-increasing. -/
theorem Trace.chain {R Q : List (List α)} {r : ℕ} {rs qs : List ℕ}
    (h : Trace R Q r rs qs) :
    r < R.length →
    List.Chain' (fun a b => a ≥ b)
      ((rs.zip qs).map fun ij => sqDist (R.getD ij.1 []) (Q.getD ij.2 [])) := by
  induction h with
  | stop r q dq dr h1 h2 => intro hr; simp
  | step r q r2 dq dr rs0 qs0 h1 h2 hne ht ih =>
    intro hr
    obtain ⟨hn2, _⟩ := kdQuery_ok _ _ _ _ h2
    have hr2 : r2 < R.length := (nnOpt_spec _ _ _ _ hn2).1
    obtain ⟨q2, dq2, hq2head, h3⟩ := Trace.head_q ht
    have hrs0 : rs0.head? = some r2 := Trace.head_eq ht
    cases rs0 with
    | nil => simp at hrs0
    | cons a t =>
      cases qs0 with
      | nil => simp at hq2head
      | cons b t2 =>
        simp only [List.head?_cons, Option.some.injEq] at hrs0 hq2head
        subst hrs0 hq2head
        simp only [List.zip_cons_cons, List.map_cons]
        rw [List.chain'_cons]
        exact ⟨step_le hr h1 h2 h3, by simpa using ih hr2⟩

/-- Round-trip distance associated with reference index j: the squared
distance from reference point j to its nearest query point. -/
def nnD (R Q : List (List α)) (j : ℕ) : α := ((nnOpt Q (R.getD j [])).getD (0, 0)).2

/-- Termination measure for the while-1 loop: the number of reference
indices strictly below the current anchor in the lexicographic order
(round-trip distance, index). -/
def mu (R Q : List (List α)) (r : ℕ) : ℕ :=
  ((Finset.range R.length).filter
    (fun j => nnD R Q j < nnD R Q r ∨ (nnD R Q j = nnD R Q r ∧ j < r))).card

/-- Each non-terminating alternation step strictly decreases the pair
(round-trip distance, reference index) lexicographically: either the
distance strictly drops, or it stays equal and the lowest-index tie-break
forces the reference index to strictly decrease. -/
theorem lex_decrease {R Q : List (List α)} {r q r2 : ℕ} {dq dr : α}
    (hQ : Q ≠ []) (hr : r < R.length)
    (h1 : nnOpt Q (R.getD r []) = some (q, dq))
    (h2 : nnOpt R (Q.getD q []) = some (r2, dr))
    (hne : r2 ≠ r) :
    nnD R Q r2 < nnD R Q r ∨ (nnD R Q r2 = nnD R Q r ∧ r2 < r) := by
  obtain ⟨hq_lt, hdq, hq_min, _⟩ := nnOpt_spec _ _ _ _ h1
  obtain ⟨hr2_lt, hdr, hr_min, hr_low⟩ := nnOpt_spec _ _ _ _ h2
  obtain ⟨q2, dq2, h3⟩ := nnOpt_isSome Q (R.getD r2 []) hQ
  obtain ⟨hq2_lt, hdq2, hq2_min, _⟩ := nnOpt_spec _ _ _ _ h3
  have hDr : nnD R Q r = dq := by unfold nnD; rw [h1]; rfl
  have hDr2 : nnD R Q r2 = dq2 := by unfold nnD; rw [h3]; rfl
  have e2 : dr ≤ dq := by
    have hle := hr_min r hr
    rw [hdq]
    calc dr ≤ sqDist (R.getD r []) (Q.getD q []) := hle
      _ = sqDist (Q.getD q []) (R.getD r []) := sqDist_comm _ _
  have e1 : dq2 ≤ dr := by
    have hle := hq2_min q hq_lt
    rw [hdr]
    calc dq2 ≤ sqDist (Q.getD q []) (R.getD r2 []) := hle
      _ = sqDist (R.getD r2 []) (Q.getD q []) := sqDist_comm _ _
  rcases lt_or_eq_of_le e2 with hlt | heq
  · left
    rw [hDr, hDr2]
    exact lt_of_le_of_lt e1 hlt
  · have hr2r : r2 < r := by
      rcases Nat.lt_or_ge r r2 with hcase | hcase
      · exfalso
        have hstrict := hr_low r hcase
        have heq2 : sqDist (R.getD r []) (Q.getD q []) = dq := by
          rw [hdq, sqDist_comm]
        rw [heq2, ← heq] at hstrict
        exact lt_irrefl _ hstrict
      · omega
    rcases lt_or_eq_of_le e1 with hlt2 | heq2
    · left
      rw [hDr, hDr2, ← heq]
      exact hlt2
    · right
      exact ⟨by rw [hDr, hDr2, heq2, heq], hr2r⟩

/-- The termination measure strictly decreases along a non-terminating
alternation step. -/
theorem mu_decrease {R Q : List (List α)} {r q r2 : ℕ} {dq dr : α}
    (hQ : Q ≠ []) (hr : r < R.length)
    (h1 : nnOpt Q (R.getD r []) = some (q, dq))
    (h2 : nnOpt R (Q.getD q []) = some (r2, dr))
    (hne : r2 ≠ r) :
    mu R Q r2 < mu R Q r := by
  have hr2_lt : r2 < R.length := (nnOpt_spec _ _ _ _ h2).1
  have hlex := lex_decrease hQ hr h1 h2 hne
  apply Finset.card_lt_card
  rw [Finset.ssubset_iff_of_subset]
  · refine ⟨r2, ?_, ?_⟩
    · simp only [Finset.mem_filter, Finset.mem_range]
      exact ⟨hr2_lt, hlex⟩
    · simp only [Finset.mem_filter, Finset.mem_range, not_and, not_or]
      intro _
      constructor
      · exact lt_irrefl _
      · intro _
        exact lt_irrefl _
  · intro j hj
    simp only [Finset.mem_filter, Finset.mem_range] at hj ⊢
    refine ⟨hj.1, ?_⟩
    rcases hj.2 with hlt | ⟨heq, hjlt⟩ <;> rcases hlex with hlt2 | ⟨heq2, hlt3⟩
    · exact Or.inl (lt_trans hlt hlt2)
    · exact Or.inl (heq2 ▸ hlt)
    · exact Or.inl (heq ▸ hlt2)
    · exact Or.inr ⟨heq.trans heq2, lt_trans hjlt hlt3⟩

/-- The measure is always below the size of the reference cloud. -/
theorem mu_lt_len (R Q : List (List α)) (r : ℕ) (hr : r < R.length) :
    mu R Q r < R.length := by
  have hcard : ((Finset.range R.length).filter
      (fun j => nnD R Q j < nnD R Q r ∨ (nnD R Q j = nnD R Q r ∧ j < r))).card
      < (Finset.range R.length).card := by
    apply Finset.card_lt_card
    rw [Finset.ssubset_iff_of_subset (Finset.filter_subset _ _)]
    refine ⟨r, Finset.mem_range.mpr hr, ?_⟩
    simp only [Finset.mem_filter, Finset.mem_range, not_and, not_or]
    intro _
    exact ⟨lt_irrefl _, fun _ => lt_irrefl _⟩
  simpa [mu] using hcard

/-- The while-1 loop always halts: with fuel exceeding the measure of the
starting anchor the loop returns a value (a result or a scipy error), so
the source loop, which has exactly the fixed-point break, terminates. -/
theorem newLoop_total (R Q : List (List α)) (hQ : Q ≠ []) (fuel : ℕ) :
    ∀ r refAcc qAcc, r < R.length → mu R Q r < fuel →
    ∃ out, newLoop R Q fuel r refAcc qAcc = some out := by
  induction fuel with
  | zero =>
    intro r a b hr hmu
    omega
  | succ fuel ih =>
    intro r a b hr hmu
    cases h1 : kdQuery Q (R.getD r []) with
    | error e =>
      refine ⟨Except.error e, ?_⟩
      simp only [newLoop, h1]
    | ok iv =>
      obtain ⟨q, dq⟩ := iv
      cases h2 : kdQuery R (Q.getD q []) with
      | error e =>
        refine ⟨Except.error e, ?_⟩
        simp only [newLoop, h1, h2]
      | ok iv2 =>
        obtain ⟨r2, dr⟩ := iv2
        by_cases hre : r2 = r
        · refine ⟨Except.ok (sqDist (R.getD r []) (Q.getD q []), a ++ [r], b ++ [q]), ?_⟩
          simp only [newLoop, h1, h2, if_pos hre]
        · obtain ⟨hn1, _⟩ := kdQuery_ok _ _ _ _ h1
          obtain ⟨hn2, _⟩ := kdQuery_ok _ _ _ _ h2
          have hr2 : r2 < R.length := (nnOpt_spec _ _ _ _ hn2).1
          have hdec := mu_decrease hQ hr hn1 hn2 hre
          obtain ⟨out, hout⟩ := ih r2 (a ++ [r]) (b ++ [q]) hr2 (by omega)
          refine ⟨out, ?_⟩
          simp only [newLoop, h1, h2, if_neg hre]
          exact hout

/-- A successful run of the while-1 loop produces exactly the traces of a
`Trace` chain appended to the accumulators, and returns the squared
distance of the last traced pair. -/
theorem newLoop_ok_trace (R Q : List (List α)) (fuel : ℕ) :
    ∀ (r : ℕ) (refAcc qAcc : List ℕ) (d : α) (rs qs : List ℕ),
    newLoop R Q fuel r refAcc qAcc = some (Except.ok (d, rs, qs)) →
    ∃ ts tq, rs = refAcc ++ ts ∧ qs = qAcc ++ tq ∧ Trace R Q r ts tq ∧
      ∃ rl ql, ts.getLast? = some rl ∧ tq.getLast? = some ql ∧
        d = sqDist (R.getD rl []) (Q.getD ql []) := by
  induction fuel with
  | zero =>
    intro r a b d rs qs h
    simp [newLoop] at h
  | succ fuel ih =>
    intro r a b d rs qs h
    cases h1 : kdQuery Q (R.getD r []) with
    | error e =>
      simp only [newLoop, h1] at h
      simp at h
    | ok iv =>
      obtain ⟨q, dq⟩ := iv
      cases h2 : kdQuery R (Q.getD q []) with
      | error e =>
        simp only [newLoop, h1, h2] at h
        simp at h
      | ok iv2 =>
        obtain ⟨r2, dr⟩ := iv2
        by_cases hre : r2 = r
        · simp only [newLoop, h1, h2, if_pos hre, Option.some.injEq, Except.ok.injEq,
            Prod.mk.injEq] at h
          obtain ⟨hd, hrs, hqs⟩ := h
          rw [hre] at h2
          exact ⟨[r], [q], hrs.symm, hqs.symm, Trace.stop r q dq dr h1 h2, r, q,
            by simp, by simp, hd.symm⟩
        · simp only [newLoop, h1, h2, if_neg hre] at h
          obtain ⟨ts, tq, hrs, hqs, ht, rl, ql, hl1, hl2, hd⟩ :=
            ih r2 (a ++ [r]) (b ++ [q]) d rs qs h
          obtain ⟨hts, htq⟩ := Trace.ne_nil ht
          refine ⟨r :: ts, q :: tq, ?_, ?_,
            Trace.step r q r2 dq dr ts tq h1 h2 hre ht, rl, ql, ?_, ?_, hd⟩
          · rw [hrs, List.append_assoc]
            rfl
          · rw [hqs, List.append_assoc]
            rfl
          · rw [getLast?_cons_of_ne_nil hts]
            exact hl1
          · rw [getLast?_cons_of_ne_nil htq]
            exact hl2

theorem find_new_loop (R Q : List (List α)) (hR : R ≠ []) (hQ : Q ≠ [])
    (d : α) (rs qs : List ℕ)
    (h : find_shortest_distance R Q "new" = Except.ok (FSDResult.newR d rs qs)) :
    newLoop R Q R.length 0 [] [] = some (Except.ok (d, rs, qs)) := by
  unfold find_shortest_distance find_shortest_distance_traced at h
  have hg : ¬(R.length = 0 ∨ Q.length = 0) := by
    simp [List.length_eq_zero, hR, hQ]
  rw [if_neg hg, if_pos rfl] at h
  cases hL : newLoop R Q R.length 0 [] [] with
  | none =>
    rw [hL] at h
    simp at h
  | some out =>
    cases out with
    | error e =>
      rw [hL] at h
      simp at h
    | ok trip =>
      obtain ⟨d2, rs2, qs2⟩ := trip
      rw [hL] at h
      simp only [Except.ok.injEq, FSDResult.newR.injEq] at h
      obtain ⟨hd, hrs, hqs⟩ := h
      rw [← hd, ← hrs, ← hqs]

theorem find_new_of_loop (R Q : List (List α)) (hR : R ≠ []) (hQ : Q ≠ [])
    (d : α) (rs qs : List ℕ)
    (hL : newLoop R Q R.length 0 [] [] = some (Except.ok (d, rs, qs))) :
    find_shortest_distance R Q "new" = Except.ok (FSDResult.newR d rs qs) := by
  unfold find_shortest_distance find_shortest_distance_traced
  have hg : ¬(R.length = 0 ∨ Q.length = 0) := by
    simp [List.length_eq_zero, hR, hQ]
  rw [if_neg hg, if_pos rfl, hL]

theorem foldl_min_le_init (l : List α) (a : α) : l.foldl min a ≤ a := by
  induction l generalizing a with
  | nil => simp
  | cons b t ih =>
    simp only [List.foldl_cons]
    exact le_trans (ih (min a b)) (min_le_left a b)

theorem foldl_min_le_mem (l : List α) (a y : α) (hy : y ∈ l) : l.foldl min a ≤ y := by
  induction l generalizing a with
  | nil => simp at hy
  | cons b t ih =>
    simp only [List.foldl_cons]
    rcases List.mem_cons.mp hy with rfl | hmem
    · exact le_trans (foldl_min_le_init t _) (min_le_right a y)
    · exact ih _ hmem

theorem foldl_min_mem (l : List α) (a : α) : l.foldl min a = a ∨ l.foldl min a ∈ l := by
  induction l generalizing a with
  | nil => left; rfl
  | cons b t ih =>
    simp only [List.foldl_cons]
    rcases ih (min a b) with h | h
    · rcases min_choice a b with hc | hc
      · left
        rw [h, hc]
      · right
        rw [h, hc]
        exact List.mem_cons_self b t
    · right
      exact List.mem_cons_of_mem b h

theorem amin_le (x : α) (xs : List α) (y : α) (hy : y ∈ x :: xs) : amin (x :: xs) ≤ y := by
  simp only [amin]
  rcases List.mem_cons.mp hy with rfl | hmem
  · exact foldl_min_le_init xs y
  · exact foldl_min_le_mem xs x y hmem

theorem amin_mem (x : α) (xs : List α) : amin (x :: xs) ∈ x :: xs := by
  simp only [amin]
  rcases foldl_min_mem xs x with h | h
  · rw [h]
    exact List.mem_cons_self x xs
  · exact List.mem_cons_of_mem x h

theorem getD_mem_gen {β : Type} (c : List β) (i : ℕ) (d0 : β) (h : i < c.length) :
    c.getD i d0 ∈ c := by
  rw [List.getD_eq_getElem?_getD, List.getElem?_eq_getElem h, Option.getD_some]
  exact List.getElem_mem h

/-- On success, the batch query returns one nearest-neighbour distance per
reference point, in order. -/
theorem batchQuery_ok_spec (Q : List (List α)) :
    ∀ (R2 : List (List α)) (ds : List α), batchQuery Q R2 = Except.ok ds →
    ds.length = R2.length ∧
    ∀ i, i < R2.length → ∃ qi, nnOpt Q (R2.getD i []) = some (qi, ds.getD i 0) := by
  intro R2
  induction R2 with
  | nil =>
    intro ds h
    simp only [batchQuery, Except.ok.injEq] at h
    subst h
    exact ⟨rfl, fun i hi => absurd hi (by simp)⟩
  | cons p ps ih =>
    intro ds h
    cases hk : kdQuery Q p with
    | error e => simp [batchQuery, hk] at h
    | ok iv =>
      cases hb : batchQuery Q ps with
      | error e => simp [batchQuery, hk, hb] at h
      | ok ds2 =>
        simp only [batchQuery, hk, hb, Except.ok.injEq] at h
        subst h
        obtain ⟨hlen, hspec⟩ := ih ds2 hb
        obtain ⟨hnn, _⟩ := kdQuery_ok _ _ _ _ (by rw [hk])
        constructor
        · simp [hlen]
        · intro i hi
          cases i with
          | zero => exact ⟨iv.1, by simpa using hnn⟩
          | succ k =>
            have hk2 : k < ps.length := by simpa using hi
            obtain ⟨qi, hqi⟩ := hspec k hk2
            exact ⟨qi, by simpa using hqi⟩

/-- With non-empty clouds of matching dimensionality every kd-tree query in
the batch succeeds. -/
theorem batchQuery_total (Q : List (List α)) (hQ : Q ≠ []) (m : ℕ)
    (hm : (Q.headD []).length = m) :
    ∀ R2 : List (List α), (∀ p ∈ R2, p.length = m) →
    ∃ ds, batchQuery Q R2 = Except.ok ds := by
  intro R2
  induction R2 with
  | nil => exact fun _ => ⟨[], rfl⟩
  | cons p ps ih =>
    intro hall
    obtain ⟨ds2, hds2⟩ := ih (fun x hx => hall x (List.mem_cons_of_mem p hx))
    have hp : p.length = (Q.headD []).length := by
      rw [hm]
      exact hall p (List.mem_cons_self p ps)
    obtain ⟨i, dd, hk, _⟩ := kdQuery_ok_of_dim Q p hQ hp
    exact ⟨dd :: ds2, by simp [batchQuery, hk, hds2]⟩

theorem find_exh_eq (R Q : List (List α)) (hR : R ≠ []) (hQ : Q ≠ []) (ds : List α)
    (hb : batchQuery Q R = Except.ok ds) :
    find_shortest_distance R Q "exhaustive" = Except.ok (FSDResult.exhaustiveR (amin ds)) := by
  unfold find_shortest_distance find_shortest_distance_traced
  have hg : ¬(R.length = 0 ∨ Q.length = 0) := by
    simp [List.length_eq_zero, hR, hQ]
  rw [if_neg hg, if_neg (by decide : ¬("exhaustive" = "new")), if_pos rfl, hb]

/-- Characterisation of the exhaustive method on valid input: it succeeds
and returns the minimum over all pairwise squared distances, which is
attained by an actual pair of points. -/
theorem exhaustive_min_spec (R Q : List (List α)) (m : ℕ) (hR : R ≠ []) (hQ : Q ≠ [])
    (hRm : ∀ p ∈ R, p.length = m) (hQm : ∀ p ∈ Q, p.length = m) :
    ∃ e, find_shortest_distance R Q "exhaustive" = Except.ok (FSDResult.exhaustiveR e) ∧
      (∀ i j, i < R.length → j < Q.length → e ≤ sqDist (R.getD i []) (Q.getD j [])) ∧
      (∃ i j, i < R.length ∧ j < Q.length ∧ e = sqDist (R.getD i []) (Q.getD j [])) := by
  have hmQ : (Q.headD []).length = m := hQm _ (headD_mem Q hQ)
  obtain ⟨ds, hds⟩ := batchQuery_total Q hQ m hmQ R hRm
  obtain ⟨hlen, hspec⟩ := batchQuery_ok_spec Q R ds hds
  refine ⟨amin ds, find_exh_eq R Q hR hQ ds hds, ?_, ?_⟩
  · intro i j hi hj
    obtain ⟨qi, hqi⟩ := hspec i hi
    obtain ⟨_, _, hmin, _⟩ := nnOpt_spec _ _ _ _ hqi
    have hi2 : i < ds.length := by omega
    have hmem : ds.getD i 0 ∈ ds := getD_mem_gen ds i 0 hi2
    have h1 : amin ds ≤ ds.getD i 0 := by
      cases ds with
      | nil => simp at hi2
      | cons x xs => exact amin_le x xs _ hmem
    calc amin ds ≤ ds.getD i 0 := h1
      _ ≤ sqDist (Q.getD j []) (R.getD i []) := hmin j hj
      _ = sqDist (R.getD i []) (Q.getD j []) := sqDist_comm _ _
  · have hne : ds ≠ [] := by
      intro hc
      rw [hc] at hlen
      simp at hlen
      exact hR (List.length_eq_zero.mp hlen.symm)
    obtain ⟨x, xs, rfl⟩ : ∃ x xs, ds = x :: xs := by
      cases ds with
      | nil => exact absurd rfl hne
      | cons x xs => exact ⟨x, xs, rfl⟩
    have hmem := amin_mem x xs
    obtain ⟨i, hi, hval⟩ := List.getElem_of_mem hmem
    have hgd : (x :: xs).getD i 0 = amin (x :: xs) := by
      rw [List.getD_eq_getElem?_getD, List.getElem?_eq_getElem hi, Option.getD_some, hval]
    have hiR : i < R.length := by
      rw [← hlen]
      exact hi
    obtain ⟨qi, hqi⟩ := hspec i hiR
    obtain ⟨hqi_lt, hdeq, _, _⟩ := nnOpt_spec _ _ _ _ hqi
    refine ⟨i, qi, hiR, hqi_lt, ?_⟩
    calc amin (x :: xs) = (x :: xs).getD i 0 := hgd.symm
      _ = sqDist (Q.getD qi []) (R.getD i []) := hdeq
      _ = sqDist (R.getD i []) (Q.getD qi []) := sqDist_comm _ _

/-- With non-empty clouds of equal uniform dimensionality no kd-tree query
of the while-1 loop can fail. -/
theorem newLoop_no_error (R Q : List (List α)) (m : ℕ) (hR : R ≠ []) (hQ : Q ≠ [])
    (hRm : ∀ p ∈ R, p.length = m) (hQm : ∀ p ∈ Q, p.length = m) (fuel : ℕ) :
    ∀ r refAcc qAcc e, r < R.length →
    newLoop R Q fuel r refAcc qAcc ≠ some (Except.error e) := by
  induction fuel with
  | zero =>
    intro r a b e hr h
    simp [newLoop] at h
  | succ fuel ih =>
    intro r a b e hr h
    have hp1 : (R.getD r []).length = (Q.headD []).length := by
      rw [hQm _ (headD_mem Q hQ), hRm _ (getD_mem_gen R r [] hr)]
    obtain ⟨q, dq, hk1, hn1⟩ := kdQuery_ok_of_dim Q (R.getD r []) hQ hp1
    have hq_lt : q < Q.length := (nnOpt_spec _ _ _ _ hn1).1
    have hp2 : (Q.getD q []).length = (R.headD []).length := by
      rw [hRm _ (headD_mem R hR), hQm _ (getD_mem_gen Q q [] hq_lt)]
    obtain ⟨r2, dr, hk2, hn2⟩ := kdQuery_ok_of_dim R (Q.getD q []) hR hp2
    have hr2 : r2 < R.length := (nnOpt_spec _ _ _ _ hn2).1
    by_cases hre : r2 = r
    · simp only [newLoop, hk1, hk2, if_pos hre] at h
      simp at h
    · simp only [newLoop, hk1, hk2, if_neg hre] at h
      exact ih r2 (a ++ [r]) (b ++ [q]) e hr2 h

/-- The only error the while-1 loop can surface is the scipy dimensionality
error. -/
theorem newLoop_error_msg (R Q : List (List α)) (hR : R ≠ []) (hQ : Q ≠ []) (fuel : ℕ) :
    ∀ r refAcc qAcc e, newLoop R Q fuel r refAcc qAcc = some (Except.error e) →
    e = dimMismatchMsg := by
  induction fuel with
  | zero =>
    intro r a b e h
    simp [newLoop] at h
  | succ fuel ih =>
    intro r a b e h
    cases h1 : kdQuery Q (R.getD r []) with
    | error e2 =>
      simp only [newLoop, h1, Option.some.injEq, Except.error.injEq] at h
      rw [← h]
      exact kdQuery_error_msg Q (R.getD r []) e2 hQ h1
    | ok iv =>
      obtain ⟨q, dq⟩ := iv
      cases h2 : kdQuery R (Q.getD q []) with
      | error e2 =>
        simp only [newLoop, h1, h2, Option.some.injEq, Except.error.injEq] at h
        rw [← h]
        exact kdQuery_error_msg R (Q.getD q []) e2 hR h2
      | ok iv2 =>
        obtain ⟨r2, dr⟩ := iv2
        by_cases hre : r2 = r
        · simp only [newLoop, h1, h2, if_pos hre] at h
          simp at h
        · simp only [newLoop, h1, h2, if_neg hre] at h
          exact ih r2 (a ++ [r]) (b ++ [q]) e h

/-- The only error the batch query can surface is the scipy dimensionality
error. -/
theorem batchQuery_error_msg (Q : List (List α)) (hQ : Q ≠ []) :
    ∀ R2 e, batchQuery Q R2 = Except.error e → e = dimMismatchMsg := by
  intro R2
  induction R2 with
  | nil =>
    intro e h
    simp [batchQuery] at h
  | cons p ps ih =>
    intro e h
    cases hk : kdQuery Q p with
    | error e2 =>
      simp only [batchQuery, hk, Except.error.injEq] at h
      rw [← h]
      exact kdQuery_error_msg Q p e2 hQ hk
    | ok iv =>
      cases hb : batchQuery Q ps with
      | error e2 =>
        simp only [batchQuery, hk, hb, Except.error.injEq] at h
        rw [← h]
        exact ih e2 hb
      | ok ds =>
        simp [batchQuery, hk, hb] at h

/-- A successful run of the new method returns the distance of an actual
pair of points: the fixed-point pair of the last traced indices. -/
theorem new_result_pair (R Q : List (List α)) (hR : R ≠ []) (hQ : Q ≠ [])
    (d : α) (rs qs : List ℕ)
    (hnew : find_shortest_distance R Q "new" = Except.ok (FSDResult.newR d rs qs)) :
    ∃ rl ql, rl < R.length ∧ ql < Q.length ∧
      d = sqDist (R.getD rl []) (Q.getD ql []) := by
  have hL := find_new_loop R Q hR hQ d rs qs hnew
  obtain ⟨ts, tq, hts, htq, htr, rl, ql, hl1, hl2, hd⟩ :=
    newLoop_ok_trace R Q R.length 0 [] [] d rs qs hL
  obtain ⟨rl2, ql2, dqv, drv, hLr, hLq, hk1, hk2⟩ := Trace.last_fixed htr
  rw [hl1] at hLr
  rw [hl2] at hLq
  simp only [Option.some.injEq] at hLr hLq
  subst hLr hLq
  obtain ⟨hn1, _⟩ := kdQuery_ok _ _ _ _ hk1
  obtain ⟨hn2, _⟩ := kdQuery_ok _ _ _ _ hk2
  exact ⟨rl, ql, (nnOpt_spec _ _ _ _ hn2).1, (nnOpt_spec _ _ _ _ hn1).1, hd⟩

/-- Claim C1, counterexample: two clouds with disjoint convex hulls
(strictly separated by the hyperplane x = 1 via w = (1,0)) on which the
new method stops at the non-global mutual-nearest pair with squared
distance 5 while the exhaustive minimum squared distance is 4.  This
refutes the claim that disjoint hulls force agreement of the two methods. -/
theorem claim1_agreement_counterexample :
    LinSep [[0,0],[0,20]] [[2,(1:ℤ)],[2,20]] ∧
    find_shortest_distance [[0,0],[0,20]] [[2,(1:ℤ)],[2,20]] "new"
      = Except.ok (FSDResult.newR 5 [0] [0]) ∧
    find_shortest_distance [[0,0],[0,20]] [[2,(1:ℤ)],[2,20]] "exhaustive"
      = Except.ok (FSDResult.exhaustiveR 4) ∧
    (5 : ℤ) ≠ 4 :=
  ⟨⟨[1,0], 1, by decide, by decide⟩, by decide, by decide, by decide⟩

/-- Claim C1, amended: for non-empty dimension-matched clouds with disjoint
convex hulls, the distance returned by the new method is an upper bound on
the exhaustive minimum (it is the distance of an actual pair); equality can
fail when the alternation stops at a non-global fixed point. -/
theorem claim1_agreement_amended (R Q : List (List α)) (m : ℕ)
    (hR : R ≠ []) (hQ : Q ≠ [])
    (hRm : ∀ p ∈ R, p.length = m) (hQm : ∀ p ∈ Q, p.length = m)
    (hsep : LinSep R Q) (d e : α) (rs qs : List ℕ)
    (hnew : find_shortest_distance R Q "new" = Except.ok (FSDResult.newR d rs qs))
    (hexh : find_shortest_distance R Q "exhaustive" = Except.ok (FSDResult.exhaustiveR e)) :
    e ≤ d := by
  obtain ⟨rl, ql, hrl, hql, hd⟩ := new_result_pair R Q hR hQ d rs qs hnew
  obtain ⟨e2, hfe, hlow, _⟩ := exhaustive_min_spec R Q m hR hQ hRm hQm
  rw [hexh] at hfe
  simp only [Except.ok.injEq, FSDResult.exhaustiveR.injEq] at hfe
  rw [hd, hfe]
  exact hlow rl ql hrl hql

theorem claim1_agreement_amended_witness :
    find_shortest_distance [[0,0],[10,10]] [[0,(1:ℤ)],[10,11]] "new"
      = Except.ok (FSDResult.newR 1 [0] [0]) ∧ (1 : ℤ) ≤ 1 :=
  ⟨by decide,
    claim1_agreement_amended [[0,0],[10,10]] [[0,(1:ℤ)],[10,11]] 2
      (by decide) (by decide) (by decide) (by decide)
      ⟨[-2,2], 1, by decide, by decide⟩ 1 1 [0] [0] (by decide) (by decide)⟩

/-- Claim C2: on non-empty dimension-matched clouds the exhaustive method
returns a single non-negative scalar that is a lower bound on every
pairwise (squared) distance and is attained by an actual pair, i.e. it is
the minimum over all pairwise distances. -/
theorem claim2_exhaustive_min (R Q : List (List α)) (m : ℕ)
    (hR : R ≠ []) (hQ : Q ≠ [])
    (hRm : ∀ p ∈ R, p.length = m) (hQm : ∀ p ∈ Q, p.length = m) :
    ∃ e, find_shortest_distance R Q "exhaustive" = Except.ok (FSDResult.exhaustiveR e) ∧
      0 ≤ e ∧
      (∀ i j, i < R.length → j < Q.length → e ≤ sqDist (R.getD i []) (Q.getD j [])) ∧
      (∃ i j, i < R.length ∧ j < Q.length ∧ e = sqDist (R.getD i []) (Q.getD j [])) := by
  obtain ⟨e, hfe, hlow, hatt⟩ := exhaustive_min_spec R Q m hR hQ hRm hQm
  refine ⟨e, hfe, ?_, hlow, hatt⟩
  obtain ⟨i, j, hi, hj, heq⟩ := hatt
  rw [heq]
  exact sqDist_nonneg _ _

theorem claim2_exhaustive_min_witness :
    ∃ e, find_shortest_distance [[0,0],[10,10]] [[0,(1:ℤ)],[10,11]] "exhaustive"
        = Except.ok (FSDResult.exhaustiveR e) ∧
      0 ≤ e ∧
      (∀ i j, i < ([[0,0],[10,10]] : List (List ℤ)).length →
        j < ([[0,(1:ℤ)],[10,11]] : List (List ℤ)).length →
        e ≤ sqDist (([[0,0],[10,10]] : List (List ℤ)).getD i [])
          (([[0,(1:ℤ)],[10,11]] : List (List ℤ)).getD j [])) ∧
      (∃ i j, i < ([[0,0],[10,10]] : List (List ℤ)).length ∧
        j < ([[0,(1:ℤ)],[10,11]] : List (List ℤ)).length ∧
        e = sqDist (([[0,0],[10,10]] : List (List ℤ)).getD i [])
          (([[0,(1:ℤ)],[10,11]] : List (List ℤ)).getD j [])) :=
  claim2_exhaustive_min [[0,0],[10,10]] [[0,(1:ℤ)],[10,11]] 2
    (by decide) (by decide) (by decide) (by decide)

/-- Claim C3: on non-empty dimension-matched clouds with disjoint convex
hulls, the sequence of round-trip (squared) distances of the pairs visited
by the new method is non-increasing across iterations. -/
theorem claim3_round_trips_non_increasing (R Q : List (List α)) (m : ℕ)
    (hR : R ≠ []) (hQ : Q ≠ [])
    (hRm : ∀ p ∈ R, p.length = m) (hQm : ∀ p ∈ Q, p.length = m)
    (hsep : LinSep R Q) (d : α) (rs qs : List ℕ)
    (hnew : find_shortest_distance R Q "new" = Except.ok (FSDResult.newR d rs qs)) :
    List.Chain' (fun a b => a ≥ b)
      ((rs.zip qs).map fun ij => sqDist (R.getD ij.1 []) (Q.getD ij.2 [])) := by
  have hL := find_new_loop R Q hR hQ d rs qs hnew
  obtain ⟨ts, tq, hts, htq, htr, _⟩ :=
    newLoop_ok_trace R Q R.length 0 [] [] d rs qs hL
  simp only [List.nil_append] at hts htq
  subst hts htq
  exact Trace.chain htr (List.length_pos.mpr hR)

theorem claim3_round_trips_non_increasing_witness :
    List.Chain' (fun a b : ℤ => a ≥ b)
      ((([0] : List ℕ).zip ([0] : List ℕ)).map fun ij =>
        sqDist (([[0,0],[10,10]] : List (List ℤ)).getD ij.1 [])
          (([[0,(1:ℤ)],[10,11]] : List (List ℤ)).getD ij.2 [])) :=
  claim3_round_trips_non_increasing [[0,0],[10,10]] [[0,(1:ℤ)],[10,11]] 2
    (by decide) (by decide) (by decide) (by decide)
    ⟨[-2,2], 1, by decide, by decide⟩ 1 [0] [0] (by decide)

/-- Claim C4: every successful run of the new method starts its reference
trace at index 0, ends at a fixed point of the alternation (the nearest
query point of the last reference index is the last query index and the
nearest reference point of that query point is the last reference index
itself), and returns exactly the (squared) distance between the points at
the last traced reference and query indices. -/
theorem claim4_start_zero_fixed_point (R Q : List (List α))
    (hR : R ≠ []) (hQ : Q ≠ []) (d : α) (rs qs : List ℕ)
    (hnew : find_shortest_distance R Q "new" = Except.ok (FSDResult.newR d rs qs)) :
    rs.head? = some 0 ∧
    ∃ rl ql, rs.getLast? = some rl ∧ qs.getLast? = some ql ∧
      (∃ dq, kdQuery Q (R.getD rl []) = Except.ok (ql, dq)) ∧
      (∃ dr, kdQuery R (Q.getD ql []) = Except.ok (rl, dr)) ∧
      d = sqDist (R.getD rl []) (Q.getD ql []) := by
  have hL := find_new_loop R Q hR hQ d rs qs hnew
  obtain ⟨ts, tq, hts, htq, htr, rl, ql, hl1, hl2, hd⟩ :=
    newLoop_ok_trace R Q R.length 0 [] [] d rs qs hL
  simp only [List.nil_append] at hts htq
  subst hts htq
  obtain ⟨rl2, ql2, dqv, drv, hLr, hLq, hk1, hk2⟩ := Trace.last_fixed htr
  rw [hl1] at hLr
  rw [hl2] at hLq
  simp only [Option.some.injEq] at hLr hLq
  subst hLr hLq
  exact ⟨Trace.head_eq htr, rl, ql, hl1, hl2, ⟨dqv, hk1⟩, ⟨drv, hk2⟩, hd⟩

theorem claim4_start_zero_fixed_point_witness :
    (([0] : List ℕ).head? = some 0 ∧
    ∃ rl ql, ([0] : List ℕ).getLast? = some rl ∧ ([0] : List ℕ).getLast? = some ql ∧
      (∃ dq, kdQuery ([[0,(1:ℤ)],[10,11]] : List (List ℤ))
        (([[0,0],[10,10]] : List (List ℤ)).getD rl []) = Except.ok (ql, dq)) ∧
      (∃ dr, kdQuery ([[0,0],[10,10]] : List (List ℤ))
        (([[0,(1:ℤ)],[10,11]] : List (List ℤ)).getD ql []) = Except.ok (rl, dr)) ∧
      (1 : ℤ) = sqDist (([[0,0],[10,10]] : List (List ℤ)).getD rl [])
        (([[0,(1:ℤ)],[10,11]] : List (List ℤ)).getD ql [])) :=
  claim4_start_zero_fixed_point [[0,0],[10,10]] [[0,(1:ℤ)],[10,11]]
    (by decide) (by decide) 1 [0] [0] (by decide)

/-- Claim C5: the exhaustive method is symmetric in its two cloud
arguments on non-empty dimension-matched clouds. -/
theorem claim5_exhaustive_symmetric (R Q : List (List α)) (m : ℕ)
    (hR : R ≠ []) (hQ : Q ≠ [])
    (hRm : ∀ p ∈ R, p.length = m) (hQm : ∀ p ∈ Q, p.length = m) :
    find_shortest_distance R Q "exhaustive" = find_shortest_distance Q R "exhaustive" := by
  obtain ⟨e1, hf1, hlow1, hatt1⟩ := exhaustive_min_spec R Q m hR hQ hRm hQm
  obtain ⟨e2, hf2, hlow2, hatt2⟩ := exhaustive_min_spec Q R m hQ hR hQm hRm
  have h12 : e1 ≤ e2 := by
    obtain ⟨j, i, hj, hi, heq⟩ := hatt2
    calc e1 ≤ sqDist (R.getD i []) (Q.getD j []) := hlow1 i j hi hj
      _ = sqDist (Q.getD j []) (R.getD i []) := sqDist_comm _ _
      _ = e2 := heq.symm
  have h21 : e2 ≤ e1 := by
    obtain ⟨i, j, hi, hj, heq⟩ := hatt1
    calc e2 ≤ sqDist (Q.getD j []) (R.getD i []) := hlow2 j i hj hi
      _ = sqDist (R.getD i []) (Q.getD j []) := sqDist_comm _ _
      _ = e1 := heq.symm
  rw [hf1, hf2, le_antisymm h12 h21]

theorem claim5_exhaustive_symmetric_witness :
    find_shortest_distance [[0,0],[10,10]] [[0,(1:ℤ)],[10,11]] "exhaustive"
      = find_shortest_distance [[0,(1:ℤ)],[10,11]] [[0,0],[10,10]] "exhaustive" :=
  claim5_exhaustive_symmetric [[0,0],[10,10]] [[0,(1:ℤ)],[10,11]] 2
    (by decide) (by decide) (by decide) (by decide)

/-- Claim C6: whenever either cloud is empty, find_shortest_distance
raises the empty-input error before any computation, for every method
string: no kd-tree is built (the construction counter is 0) and the error
carries no partial result. -/
theorem claim6_empty_input (R Q : List (List α)) (method : String)
    (h : R = [] ∨ Q = []) :
    find_shortest_distance_traced R Q method = (Except.error emptyMsg, 0) := by
  unfold find_shortest_distance_traced
  have hg : R.length = 0 ∨ Q.length = 0 := by
    rcases h with h | h
    · exact Or.inl (by simp [h])
    · exact Or.inr (by simp [h])
  rw [if_pos hg]

theorem claim6_empty_input_witness :
    find_shortest_distance_traced ([] : List (List ℤ)) [[0]] "new"
      = (Except.error emptyMsg, 0) :=
  claim6_empty_input ([] : List (List ℤ)) [[0]] "new" (Or.inl rfl)

/-- Claim C7, counterexample: on dimension-mismatched non-empty clouds the
failure is the scipy ValueError raised from the first kd-tree query, and
the construction counter shows the kd-tree indexes were already built when
it was raised (2 builds for the new method, 1 for the exhaustive method),
refuting "raised before any traversal or index construction proceeds"; the
source also has no DimensionMismatchError of its own. -/
theorem claim7_dim_mismatch_counterexample :
    find_shortest_distance_traced [[0,(0:ℤ)]] [[1]] "new"
      = (Except.error dimMismatchMsg, 2) ∧
    find_shortest_distance_traced [[0,(0:ℤ)]] [[1]] "exhaustive"
      = (Except.error dimMismatchMsg, 1) :=
  ⟨by decide, by decide⟩

/-- Claim C7, amended: for non-empty clouds of differing uniform
dimensionalities, find_shortest_distance fails with the scipy
dimensionality ValueError for both methods, but only after the kd-tree
indexes have been constructed (2 for the new method, 1 for the exhaustive
method); the source performs no dimension check of its own before
construction. -/
theorem claim7_dim_mismatch_amended (R Q : List (List α)) (m1 m2 : ℕ)
    (hR : R ≠ []) (hQ : Q ≠ [])
    (hRm : ∀ p ∈ R, p.length = m1) (hQm : ∀ p ∈ Q, p.length = m2)
    (hne : m1 ≠ m2) :
    find_shortest_distance_traced R Q "new" = (Except.error dimMismatchMsg, 2) ∧
    find_shortest_distance_traced R Q "exhaustive" = (Except.error dimMismatchMsg, 1) := by
  have hg : ¬(R.length = 0 ∨ Q.length = 0) := by
    simp [List.length_eq_zero, hR, hQ]
  obtain ⟨p, ps, rfl⟩ : ∃ p ps, R = p :: ps := by
    cases R with
    | nil => exact absurd rfl hR
    | cons p ps => exact ⟨p, ps, rfl⟩
  have hdim : kdQuery Q p = Except.error dimMismatchMsg := by
    apply kdQuery_error_dim
    rw [hRm p (List.mem_cons_self p ps), hQm _ (headD_mem Q hQ)]
    exact hne
  constructor
  · unfold find_shortest_distance_traced
    rw [if_neg hg, if_pos rfl]
    simp only [List.length_cons, newLoop, List.getD_cons_zero, hdim]
  · unfold find_shortest_distance_traced
    rw [if_neg hg, if_neg (by decide : ¬("exhaustive" = "new")), if_pos rfl]
    simp only [batchQuery, hdim]

theorem claim7_dim_mismatch_amended_witness :
    find_shortest_distance_traced [[0,(0:ℤ)],[1,1]] [[5]] "new"
      = (Except.error dimMismatchMsg, 2) ∧
    find_shortest_distance_traced [[0,(0:ℤ)],[1,1]] [[5]] "exhaustive"
      = (Except.error dimMismatchMsg, 1) :=
  claim7_dim_mismatch_amended [[0,(0:ℤ)],[1,1]] [[5]] 2 1
    (by decide) (by decide) (by decide) (by decide) (by decide)

/-- Claim C8, counterexample: the source loop has no iteration cap and no
NonConvergenceError; on a pathological input (overlapping clouds on a
line) the new method silently returns the non-minimal squared distance 4
with no error, while the true minimum is 1 — refuting "fails with
NonConvergenceError rather than silently returning a possibly-wrong
answer". -/
theorem claim8_cap_counterexample :
    find_shortest_distance [[(0:ℤ)],[6]] [[2],[7]] "new"
      = Except.ok (FSDResult.newR 4 [0] [0]) ∧
    find_shortest_distance [[(0:ℤ)],[6]] [[2],[7]] "exhaustive"
      = Except.ok (FSDResult.exhaustiveR 1) ∧
    (4 : ℤ) ≠ 1 :=
  ⟨by decide, by decide, by decide⟩

/-- Claim C8, amended: find_shortest_distance never fails with a
non-convergence error: its only possible failures are the empty-input
error, the bad-method error and the scipy dimensionality error.  (With
exact nearest-neighbour queries and lowest-index tie-breaking the while-1
loop always reaches a fixed point, so no cap is needed; on pathological
inputs the method can silently return a non-minimal distance.) -/
theorem claim8_no_nonconvergence_error (R Q : List (List α)) (method s : String)
    (h : find_shortest_distance R Q method = Except.error s) :
    s = emptyMsg ∨ s = badMethodMsg ∨ s = dimMismatchMsg := by
  unfold find_shortest_distance find_shortest_distance_traced at h
  by_cases hg : R.length = 0 ∨ Q.length = 0
  · rw [if_pos hg] at h
    simp at h
    exact Or.inl h.symm
  · rw [if_neg hg] at h
    have hR : R ≠ [] := fun hc => hg (Or.inl (by simp [hc]))
    have hQ : Q ≠ [] := fun hc => hg (Or.inr (by simp [hc]))
    by_cases hm1 : method = "new"
    · rw [if_pos hm1] at h
      have h0 : (0:ℕ) < R.length := List.length_pos.mpr hR
      obtain ⟨out, hout⟩ := newLoop_total R Q hQ R.length 0 [] [] h0 (mu_lt_len R Q 0 h0)
      rw [hout] at h
      cases out with
      | ok trip =>
        obtain ⟨d2, rs2, qs2⟩ := trip
        simp at h
      | error e2 =>
        simp at h
        exact Or.inr (Or.inr (h ▸ newLoop_error_msg R Q hR hQ R.length 0 [] [] e2 hout))
    · rw [if_neg hm1] at h
      by_cases hm2 : method = "exhaustive"
      · rw [if_pos hm2] at h
        cases hb : batchQuery Q R with
        | error e2 =>
          rw [hb] at h
          simp at h
          exact Or.inr (Or.inr (h ▸ batchQuery_error_msg Q hQ R e2 hb))
        | ok ds =>
          rw [hb] at h
          simp at h
      · rw [if_neg hm2] at h
        simp at h
        exact Or.inr (Or.inl h.symm)

theorem claim8_no_nonconvergence_error_witness :
    badMethodMsg = emptyMsg ∨ badMethodMsg = badMethodMsg ∨ badMethodMsg = dimMismatchMsg :=
  claim8_no_nonconvergence_error [[(0:ℤ)]] [[0]] "other" badMethodMsg (by decide)

/-- Claim C9: on non-empty dimension-matched clouds the while-1 loop of
the new method always terminates: the modelled nearest-neighbour queries
are exact and break ties by lowest index, the round-trip distance is
non-increasing, and on a distance plateau the tie-break strictly decreases
the reference index, so the run returns a result after finitely many
iterations (at most the size of the reference cloud). -/
theorem claim9_while1_terminates (R Q : List (List α)) (m : ℕ)
    (hR : R ≠ []) (hQ : Q ≠ [])
    (hRm : ∀ p ∈ R, p.length = m) (hQm : ∀ p ∈ Q, p.length = m) :
    ∃ d rs qs, find_shortest_distance R Q "new" = Except.ok (FSDResult.newR d rs qs) := by
  have h0 : (0:ℕ) < R.length := List.length_pos.mpr hR
  obtain ⟨out, hout⟩ := newLoop_total R Q hQ R.length 0 [] [] h0 (mu_lt_len R Q 0 h0)
  cases out with
  | error e =>
    exact absurd hout (newLoop_no_error R Q m hR hQ hRm hQm R.length 0 [] [] e h0)
  | ok trip =>
    obtain ⟨d, rs, qs⟩ := trip
    exact ⟨d, rs, qs, find_new_of_loop R Q hR hQ d rs qs hout⟩

theorem claim9_while1_terminates_witness :
    ∃ d rs qs, find_shortest_distance [[0,0],[10,10]] [[0,(1:ℤ)],[10,11]] "new"
      = Except.ok (FSDResult.newR d rs qs) :=
  claim9_while1_terminates [[0,0],[10,10]] [[0,(1:ℤ)],[10,11]] 2
    (by decide) (by decide) (by decide) (by decide)

/-- Claim C10: whenever the new method returns on non-empty
dimension-matched clouds, its distance is the distance of an actual
(reference point, query point) pair, hence at least the exhaustive
minimum: the alternation can overestimate but never underestimate. -/
theorem claim10_new_ge_exhaustive (R Q : List (List α)) (m : ℕ)
    (hR : R ≠ []) (hQ : Q ≠ [])
    (hRm : ∀ p ∈ R, p.length = m) (hQm : ∀ p ∈ Q, p.length = m)
    (d e : α) (rs qs : List ℕ)
    (hnew : find_shortest_distance R Q "new" = Except.ok (FSDResult.newR d rs qs))
    (hexh : find_shortest_distance R Q "exhaustive" = Except.ok (FSDResult.exhaustiveR e)) :
    e ≤ d := by
  obtain ⟨rl, ql, hrl, hql, hd⟩ := new_result_pair R Q hR hQ d rs qs hnew
  obtain ⟨e2, hfe, hlow, _⟩ := exhaustive_min_spec R Q m hR hQ hRm hQm
  rw [hexh] at hfe
  simp only [Except.ok.injEq, FSDResult.exhaustiveR.injEq] at hfe
  rw [hd, hfe]
  exact hlow rl ql hrl hql

theorem claim10_new_ge_exhaustive_witness :
    find_shortest_distance [[(0:ℤ)],[6]] [[2],[7]] "new"
      = Except.ok (FSDResult.newR 4 [0] [0]) ∧ (1 : ℤ) ≤ 4 :=
  ⟨by decide,
    claim10_new_ge_exhaustive [[(0:ℤ)],[6]] [[2],[7]] 1
      (by decide) (by decide) (by decide) (by decide)
      4 1 [0] [0] (by decide) (by decide)⟩
